import Mathlib

/-!
Verification of the DFA construction and minimization core (src/src/dfa.rs).

The Rust code builds a deterministic finite automaton from a list of
grapheme clusters (trie-style insertion with range-aware edge coalescing)
and then minimizes it with a Hopcroft-style partition-refinement algorithm.

Shallow embedding conventions:
* `Grapheme` (the Symbol type) lives in `src/grapheme.rs`, which is not part
  of the supplied sources; it is modelled from the spec (section 3): a display
  value plus inclusive numeric bounds `minimum`/`maximum`, immutable, with a
  total order used for the `BTreeSet` alphabet.
* petgraph's `StableGraph` never has nodes or edges removed here, so states
  are `0, 1, ...` (`nodeCount`) and edges are kept in insertion order in a
  list.  petgraph's `neighbors` and `find_edge` walk a node's adjacency list
  newest-edge-first; this is modelled by reversing the insertion-ordered
  list of outgoing (resp. incoming) edges.
* Rust `u32` values are modelled as `Nat`.  The only subtraction in the code,
  `grapheme.maximum() - 1` in `find_next_state`, is embedded as the condition
  `e.maximum + 1 = grapheme.maximum`, which agrees with the wrapping `u32`
  subtraction for all values below `2^32`.
* `HashSet` values are modelled as duplicate-free lists; every `HashSet`
  operation in the code is either membership-based (content deterministic) or
  an iteration whose order cannot affect the result, except for the choice of
  the representative of an equivalence class in `recreate_graph`
  (`iter().next().unwrap()`), which is made explicit as a `pick` parameter.
-/

namespace Grex

/-- Symbol. Modelled from the spec (section 3): `src/grapheme.rs` is not in
the supplied sources. A Symbol has a display `value` and inclusive bounds
`minimum`/`maximum`; equality requires all three to match. -/
structure Grapheme where
  value : String
  minimum : Nat
  maximum : Nat
deriving DecidableEq, Repr

/-- Modelled from the spec: the character data of a Symbol determines its
display value, so the `chars()` accessor is identified with the value. -/
def Grapheme.chars (g : Grapheme) : String :=
  g.value

/-- Modelled from the spec: `Grapheme::new(chars, min, max, is_output_colorized)`
builds a Symbol from character data and bounds; the colorization flag does not
affect automaton structure (spec section 6). -/
def Grapheme.new (chars : String) (mn mx : Nat) (_colorized : Bool) : Grapheme :=
  ⟨chars, mn, mx⟩

/-- Lexicographic strict order on character lists by code point. -/
def charListLtb : List Char → List Char → Bool
  | [], [] => false
  | [], _ :: _ => true
  | _ :: _, [] => false
  | a :: as, b :: bs => if a = b then charListLtb as bs else decide (a.toNat < b.toNat)

/-- Lexicographic strict order on display values. -/
def stringLtb (a b : String) : Bool :=
  charListLtb a.data b.data

/-- Modelled from the spec: the total order on Symbols ("ordering and equality
based on code-point bounds and display text") backing the `BTreeSet` alphabet,
taken lexicographically on (value, minimum, maximum). -/
def Grapheme.leb (a b : Grapheme) : Bool :=
  if a.value = b.value then
    if a.minimum = b.minimum then a.maximum ≤ b.maximum
    else a.minimum < b.minimum
  else stringLtb a.value b.value

/-- Ordered insertion into the `BTreeSet<Grapheme>` alphabet: no duplicates,
kept sorted by `Grapheme.leb`. -/
def alphabetInsert (g : Grapheme) : List Grapheme → List Grapheme
  | [] => [g]
  | h :: t =>
    if g = h then h :: t
    else if Grapheme.leb g h then g :: h :: t
    else h :: alphabetInsert g t

/-- A directed edge of the automaton graph, labeled with a Symbol. -/
structure Edge where
  src : Nat
  tgt : Nat
  lbl : Grapheme
deriving DecidableEq, Repr

/-- The automaton graph: states are `0 .. nodeCount - 1` (all node labels in
the Rust code are the empty string and carry no meaning, spec section 3);
edges are listed in insertion order. -/
structure Graph where
  nodeCount : Nat
  edges : List Edge
deriving DecidableEq, Repr

/-- Outgoing edges of `s`, in insertion order. -/
def Graph.edgesFrom (g : Graph) (s : Nat) : List Edge :=
  g.edges.filter (fun e => e.src = s)

/-- `graph.neighbors(s)`: targets of the outgoing edges of `s`, newest edge
first, as petgraph's adjacency walk yields them. -/
def Graph.neighborsOut (g : Graph) (s : Nat) : List Nat :=
  ((g.edgesFrom s).reverse).map Edge.tgt

/-- `graph.neighbors_directed(s, Incoming)`: sources of the incoming edges of
`s`, newest edge first. -/
def Graph.neighborsIn (g : Graph) (s : Nat) : List Nat :=
  ((g.edges.filter (fun e => e.tgt = s)).reverse).map Edge.src

/-- `graph.find_edge(a, b)` combined with `edge_weight`: the newest edge from
`a` to `b`, if any. -/
def Graph.findEdge (g : Graph) (a b : Nat) : Option Edge :=
  g.edges.reverse.find? (fun e => decide (e.src = a ∧ e.tgt = b))

/-- `graph.update_edge(a, b, w)`: replace the weight of the newest edge from
`a` to `b`; if there is none, append a fresh edge (petgraph's fallback). -/
def updateEdgeList (a b : Nat) (w : Grapheme) : List Edge → List Edge
  | [] => [⟨a, b, w⟩]
  | e :: rest =>
    if rest.any (fun e2 => decide (e2.src = a ∧ e2.tgt = b)) then
      e :: updateEdgeList a b w rest
    else if e.src = a ∧ e.tgt = b then ⟨a, b, w⟩ :: rest
    else e :: updateEdgeList a b w rest

/-- `graph.update_edge` on the graph record. -/
def Graph.updateEdge (g : Graph) (a b : Nat) (w : Grapheme) : Graph :=
  { g with edges := updateEdgeList a b w g.edges }

/-- `HashSet::insert` on a duplicate-free list (insertion position is
irrelevant: every use is membership-based). -/
def setInsert (s : Nat) (l : List Nat) : List Nat :=
  if s ∈ l then l else l ++ [s]

/-- The automaton (struct `DFA` in the source). -/
structure DFA where
  alphabet : List Grapheme
  graph : Graph
  initial_state : Nat
  final_state_indices : List Nat
  is_output_colorized : Bool
deriving DecidableEq, Repr

/-- `DFA::new`: one initial state, no edges, no final states. -/
def DFA.new (colorized : Bool) : DFA :=
  { alphabet := []
    graph := { nodeCount := 1, edges := [] }
    initial_state := 0
    final_state_indices := []
    is_output_colorized := colorized }

/-- `DFA::find_next_state`, inner loop over `graph.neighbors(current)`.
Per scanned neighbor, the newest edge to it is fetched; edges whose Symbol
value differs are skipped; an edge with `maximum == grapheme.maximum - 1` is
widened to the union of the two ranges and its target returned; an edge with
equal `maximum` has its target returned unmodified. -/
def findNextStateGo (g : Graph) (current : Nat) (grapheme : Grapheme)
    (colorized : Bool) : List Nat → Option Nat × Graph
  | [] => (none, g)
  | next :: rest =>
    match g.findEdge current next with
    | none => findNextStateGo g current grapheme colorized rest
    | some e =>
      if e.lbl.value ≠ grapheme.value then
        findNextStateGo g current grapheme colorized rest
      else if e.lbl.maximum + 1 = grapheme.maximum then
        let mn := min e.lbl.minimum grapheme.minimum
        let mx := max e.lbl.maximum grapheme.maximum
        (some next, g.updateEdge current next (Grapheme.new grapheme.chars mn mx colorized))
      else if e.lbl.maximum = grapheme.maximum then (some next, g)
      else findNextStateGo g current grapheme colorized rest

/-- `DFA::find_next_state`. -/
def findNextState (g : Graph) (current : Nat) (grapheme : Grapheme)
    (colorized : Bool) : Option Nat × Graph :=
  findNextStateGo g current grapheme colorized (g.neighborsOut current)

/-- `DFA::add_new_state`: fresh node plus an edge from `current` to it. -/
def addNewState (d : DFA) (current : Nat) (lbl : Grapheme) : DFA × Nat :=
  let n := d.graph.nodeCount
  ({ d with graph := { nodeCount := n + 1, edges := d.graph.edges ++ [⟨current, n, lbl⟩] } }, n)

/-- `DFA::get_next_state`. -/
def getNextState (d : DFA) (current : Nat) (g : Grapheme) : DFA × Nat :=
  match findNextState d.graph current g d.is_output_colorized with
  | (some n, g') => ({ d with graph := g' }, n)
  | (none, _) => addNewState d current g

/-- The loop body of `DFA::insert`: walk the cluster, registering each
grapheme in the alphabet and advancing via `get_next_state`. -/
def insertGo (d : DFA) (current : Nat) : List Grapheme → DFA × Nat
  | [] => (d, current)
  | g :: rest =>
    let d1 := { d with alphabet := alphabetInsert g d.alphabet }
    let p := getNextState d1 current g
    insertGo p.1 p.2 rest

/-- `DFA::insert`: walk the cluster from the initial state, then mark the
state reached as final. -/
def DFA.insert (d : DFA) (cluster : List Grapheme) : DFA :=
  let p := insertGo d d.initial_state cluster
  { p.1 with final_state_indices := setInsert p.2 p.1.final_state_indices }

/-- The construction phase of `DFA::from`: insert every cluster in order. -/
def buildDFA (clusters : List (List Grapheme)) : DFA :=
  clusters.foldl DFA.insert (DFA.new false)

/-- The edge test of `get_parent_states`: the edge from `p` to `s` (found via
`find_edge`) has the same Symbol value as `label` and shares its `maximum` or
its `minimum`. -/
def parentMatches (g : Graph) (label : Grapheme) (s p : Nat) : Bool :=
  match g.findEdge p s with
  | some e =>
    decide (e.lbl.value = label.value ∧
      (e.lbl.maximum = label.maximum ∨ e.lbl.minimum = label.minimum))
  | none => false

/-- The inner loop of `get_parent_states` over the incoming neighbors of `s`
(newest edge first): the `break` in the source stops at the first matching
parent. -/
def firstMatchingParent (g : Graph) (label : Grapheme) (s : Nat) : Option Nat :=
  (g.neighborsIn s).find? (parentMatches g label s)

/-- One iteration of the outer loop of `get_parent_states`: insert the first
matching parent of `s`, if any. -/
def gpsStep (g : Graph) (label : Grapheme) (x : List Nat) (s : Nat) : List Nat :=
  match firstMatchingParent g label s with
  | some p => setInsert p x
  | none => x

/-- `DFA::get_parent_states`: for each state of `a`, scan its incoming
neighbors and add the first parent whose edge to it matches `label`. -/
def getParentStates (g : Graph) (a : List Nat) (label : Grapheme) : List Nat :=
  a.foldl (gpsStep g label) []

/-- `DFA::get_initial_partition`.  `Iterator::partition` puts the states
satisfying the predicate `!final.contains(..)` into the first component, so
the first class of the linked list holds the non-final states and the second
the final states. -/
def initialPartition (d : DFA) : List (List Nat) :=
  [(List.range d.graph.nodeCount).filter (fun s => ¬ s ∈ d.final_state_indices),
   (List.range d.graph.nodeCount).filter (fun s => s ∈ d.final_state_indices)]

/-- One cursor pass of `minimize` over the partition for a fixed splitter set
`x`: every class `y` with non-empty `i = x ∩ y` and `d = y \ x` is replaced in
place by `i` followed by `d`; the performed splits `(y, i, d)` are collected
in cursor order. -/
def splitClasses (x : List Nat) :
    List (List Nat) → List (List Nat) × List (List Nat × List Nat × List Nat)
  | [] => ([], [])
  | y :: rest =>
    let i := y.filter (fun s => s ∈ x)
    let d := y.filter (fun s => ¬ s ∈ x)
    let pr := splitClasses x rest
    if i.isEmpty then (y :: pr.1, pr.2)
    else if d.isEmpty then (y :: pr.1, pr.2)
    else (i :: d :: pr.1, (y, i, d) :: pr.2)

/-- `HashSet` equality of two classes: same elements. -/
def listSetEq (a b : List Nat) : Bool :=
  a.all (fun s => s ∈ b) && b.all (fun s => s ∈ a)

/-- `w.remove(idx)` at the first position whose entry equals `y` as a set. -/
def removeFirstSetEq (y : List Nat) : List (List Nat) → List (List Nat)
  | [] => []
  | z :: t => if listSetEq z y then t else z :: removeFirstSetEq y t

/-- The worklist update of `minimize` for one recorded split `(y, i, d)`:
if `y` is present in `w` (`w.contains(&y)`, hash-set equality), remove that
occurrence (`position` + `remove`) and push both `i` and `d`; otherwise push
`i` if it is no larger than `d`, else push `d`. -/
def worklistUpdate (w : List (List Nat)) (y i d : List Nat) : List (List Nat) :=
  if w.any (fun z => listSetEq z y) then removeFirstSetEq y w ++ [i, d]
  else if i.length ≤ d.length then w ++ [i] else w ++ [d]

/-- The body of `minimize`'s alphabet loop for one symbol: compute the parent
states of `a` on the symbol, split the partition, then apply the worklist
update for every recorded split in order. -/
def processSymbol (g : Graph) (a : List Nat) (s : Grapheme)
    (p : List (List Nat)) (w : List (List Nat)) :
    List (List Nat) × List (List Nat) :=
  let x := getParentStates g a s
  let pr := splitClasses x p
  (pr.1, pr.2.foldl (fun w r => worklistUpdate w r.1 r.2.1 r.2.2) w)

/-- The worklist loop of `minimize`: pop the front class of `w` and process
every alphabet symbol against it.  The loop terminates because each split
strictly increases the class count; `fuel` makes this structural (callers pass
an over-approximation of the iteration bound). -/
def refineLoop (g : Graph) (alphabet : List Grapheme) :
    Nat → List (List Nat) → List (List Nat) → List (List Nat)
  | 0, p, _ => p
  | _ + 1, p, [] => p
  | fuel + 1, p, a :: wrest =>
    let pw := alphabet.foldl (fun pw s => processSymbol g a s pw.1 pw.2) (p, wrest)
    refineLoop g alphabet fuel pw.1 pw.2

/-- The `state_mappings` table of `recreate_graph`: each class in order gets
the next fresh node index (so class `i` gets node `i`), and every member is
mapped to it; members of several classes keep the last mapping, as repeated
`HashMap::insert` does. -/
def stateMapping (p : List (List Nat)) (s : Nat) : Option Nat :=
  p.enum.foldl (fun acc ic => if s ∈ ic.2 then some ic.1 else acc) none

/-- The edge-copying loop of `recreate_graph` for one class: walk the
neighbors of the class representative (newest edge first), copy each edge to
the new graph, and mark the mapped target final whenever the old target was
final.  The Rust code unwraps the mapping lookups; `getD 0` stands in for the
unwrap and the theorems only instantiate it where the lookup succeeds. -/
def recreateTargets (g : Graph) (fins : List Nat) (p0 : List (List Nat))
    (i rep : Nat) : List Nat → List Edge × List Nat → List Edge × List Nat
  | [], acc => acc
  | t :: ts, acc =>
    match g.findEdge rep t with
    | none => recreateTargets g fins p0 i rep ts acc
    | some e =>
      let newT := (stateMapping p0 t).getD 0
      recreateTargets g fins p0 i rep ts
        (acc.1 ++ [⟨i, newT, e.lbl⟩],
         if t ∈ fins then setInsert newT acc.2 else acc.2)

/-- The class loop of `recreate_graph`: classes in order, each contributing
the edges of its representative. -/
def recreateGo (g : Graph) (fins : List Nat) (p0 : List (List Nat))
    (pick : List Nat → Nat) :
    List (Nat × List Nat) → List Edge × List Nat → List Edge × List Nat
  | [], acc => acc
  | ic :: rest, acc =>
    recreateGo g fins p0 pick rest
      (recreateTargets g fins p0 ic.1 (pick ic.2) (g.neighborsOut (pick ic.2)) acc)

/-- `DFA::recreate_graph`, parameterized by the hash-order-dependent choice
`pick` of a class representative (`equivalence_class.iter().next().unwrap()`).
One fresh node per class (so `nodeCount = p.length`), the initial state is the
node of the class containing the old initial state, edges and final markings
come from the representatives' outgoing edges. -/
def recreateGraph (d : DFA) (pick : List Nat → Nat) (p : List (List Nat)) : DFA :=
  let ef := recreateGo d.graph d.final_state_indices p pick p.enum ([], [])
  { alphabet := d.alphabet
    graph := { nodeCount := p.length, edges := ef.1 }
    initial_state := (stateMapping p d.initial_state).getD 0
    final_state_indices := ef.2
    is_output_colorized := d.is_output_colorized }

/-- `DFA::minimize`, parameterized by the representative choice used in
`recreate_graph`.  The partition refinement itself reads the graph and the
alphabet but never mutates them, so it is run first and `recreate_graph`
consumes the non-empty classes of its result. -/
def DFA.minimizeWith (pick : List Nat → Nat) (d : DFA) : DFA :=
  let p0 := initialPartition d
  let pf := refineLoop d.graph d.alphabet (2 * d.graph.nodeCount + 2) p0 p0
  recreateGraph d pick (pf.filter (fun c => ¬ c.isEmpty))

/-- The representative an actual run happens to use is some element of the
class; the head of the list is the canonical instance. -/
def pickHead (c : List Nat) : Nat :=
  c.headD 0

/-- A second possible hash iteration order: the representative is the last
member of the class. -/
def pickLast (c : List Nat) : Nat :=
  c.getLastD 0

/-- `DFA::minimize` with the canonical representative choice. -/
def DFA.minimize (d : DFA) : DFA :=
  d.minimizeWith pickHead

/-- `DFA::from`, parameterized by the representative choice. -/
def fromClustersWith (pick : List Nat → Nat) (clusters : List (List Grapheme)) : DFA :=
  DFA.minimizeWith pick (buildDFA clusters)

/-- `DFA::from` with the canonical representative choice. -/
def fromClusters (clusters : List (List Grapheme)) : DFA :=
  fromClustersWith pickHead clusters

/-- `DFA::state_count`. -/
def DFA.state_count (d : DFA) : Nat :=
  d.graph.nodeCount

/-- `DFA::is_final_state`. -/
def DFA.is_final_state (d : DFA) (s : Nat) : Bool :=
  d.final_state_indices.contains s

/-- Modelled from the spec: an edge Symbol carries the Symbol Sequence symbol
`g` when both show the same display value and the edge's inclusive range
covers the range of `g` (spec sections 2 and 3: a Symbol is a contiguous
range of code points sharing a display value). -/
def Grapheme.subsumes (e g : Grapheme) : Bool :=
  e.value = g.value && e.minimum ≤ g.minimum && g.maximum ≤ e.maximum

/-- Modelled from the spec: acceptance of a Symbol Sequence from a state:
follow edges that subsume the successive symbols and end in a final state. -/
def acceptsFrom (g : Graph) (fins : List Nat) : Nat → List Grapheme → Bool
  | q, [] => decide (q ∈ fins)
  | q, s :: rest =>
    (g.edgesFrom q).any (fun e => e.lbl.subsumes s && acceptsFrom g fins e.tgt rest)

/-- Modelled from the spec: a Symbol Sequence is accepted by the automaton
when it is accepted from the initial state. -/
def DFA.accepts (d : DFA) (w : List Grapheme) : Bool :=
  acceptsFrom d.graph d.final_state_indices d.initial_state w

/-- One step of the range-contiguous insertion-order contract of spec section
4.1: when a grapheme is inserted at a state, every existing same-value edge
out of that state already has the same `maximum` or the immediately preceding
one. -/
def contractStepOK (g : Graph) (current : Nat) (gr : Grapheme) : Bool :=
  (g.edgesFrom current).all
    (fun e =>
      e.lbl.value ≠ gr.value ||
        (e.lbl.maximum = gr.maximum || e.lbl.maximum + 1 = gr.maximum))

/-- The insertion-order contract along one cluster insertion. -/
def insertContractGo (d : DFA) (current : Nat) : List Grapheme → Bool
  | [] => true
  | g :: rest =>
    contractStepOK d.graph current g &&
      (let d1 := { d with alphabet := alphabetInsert g d.alphabet }
       let p := getNextState d1 current g
       insertContractGo p.1 p.2 rest)

/-- The insertion-order contract along a whole sequence of insertions. -/
def insertionContractOKFrom (d : DFA) : List (List Grapheme) → Bool
  | [] => true
  | c :: cs => insertContractGo d d.initial_state c && insertionContractOKFrom (d.insert c) cs

/-- The insertion-order contract of spec section 4.1 for a full input. -/
def insertionContractOK (clusters : List (List Grapheme)) : Bool :=
  insertionContractOKFrom (DFA.new false) clusters

/-- The edge-coalescing rule as claim C3 words it: scan the outgoing edges of
`current`; skip edges with a different Symbol display text; on an edge whose
`maximum` equals `symbol.maximum - 1` (integer arithmetic) replace its Symbol
by one with the union bounds and return its target; on an edge with the same
`maximum` return its target unmodified; otherwise report no reusable
transition. -/
def findNextSpecGo (g : Graph) (grapheme : Grapheme) : List Edge → Option Nat × Graph
  | [] => (none, g)
  | e :: rest =>
    if e.lbl.value ≠ grapheme.value then findNextSpecGo g grapheme rest
    else if (e.lbl.maximum : Int) = (grapheme.maximum : Int) - 1 then
      (some e.tgt,
       { g with
         edges := g.edges.map (fun e2 =>
           if e2 = e then
             { e2 with
               lbl := ⟨e.lbl.value, min e.lbl.minimum grapheme.minimum,
                       max e.lbl.maximum grapheme.maximum⟩ }
           else e2) })
    else if e.lbl.maximum = grapheme.maximum then (some e.tgt, g)
    else findNextSpecGo g grapheme rest

/-- Claim C3's description of `find_next_state`, scanning the outgoing edges
of `current` in the order the implementation visits them. -/
def findNextStateSpec (g : Graph) (current : Nat) (grapheme : Grapheme) :
    Option Nat × Graph :=
  findNextSpecGo g grapheme ((g.edgesFrom current).reverse)

/-- Structural well-formedness of the automaton graph: edge endpoints are
existing nodes, and no two edges share a target (each non-initial state of a
constructed automaton is created by `add_new_state` together with its unique
incoming edge). -/
def Graph.WF (g : Graph) : Prop :=
  (∀ e ∈ g.edges, e.src < g.nodeCount ∧ e.tgt < g.nodeCount) ∧
    (g.edges.map Edge.tgt).Nodup

/-- Two Symbols' inclusive ranges overlap in value. -/
def rangesOverlap (a b : Grapheme) : Prop :=
  a.minimum ≤ b.maximum ∧ b.minimum ≤ a.maximum

/-! Concrete Symbols for the example automata used in counterexamples and
witnesses. -/

/-- The symbol `a` with bounds `[1, 1]`. -/
def gA11 : Grapheme := ⟨"a", 1, 1⟩

/-- The symbol `a` with bounds `[1, 2]`. -/
def gA12 : Grapheme := ⟨"a", 1, 2⟩

/-- The symbol `a` with bounds `[2, 2]`. -/
def gA22 : Grapheme := ⟨"a", 2, 2⟩

/-- The symbol `b` with bounds `[1, 1]`. -/
def gB : Grapheme := ⟨"b", 1, 1⟩

/-- The symbol `c` with bounds `[1, 1]`. -/
def gC : Grapheme := ⟨"c", 1, 1⟩

/-- The symbol `d` with bounds `[1, 1]`. -/
def gD : Grapheme := ⟨"d", 1, 1⟩

/-- The symbol `x` with bounds `[1, 1]`. -/
def gX : Grapheme := ⟨"x", 1, 1⟩

/-- The symbol `y` with bounds `[1, 1]`. -/
def gY : Grapheme := ⟨"y", 1, 1⟩

/-! ### Helper lemmas -/

theorem mem_setInsert {x n : Nat} {l : List Nat} :
    x ∈ setInsert n l ↔ x ∈ l ∨ x = n := by
  by_cases h : n ∈ l
  · simp only [setInsert, if_pos h]
    exact ⟨Or.inl, fun hx => hx.elim id (fun he => he ▸ h)⟩
  · simp [setInsert, if_neg h]

theorem mem_edgesFrom {g : Graph} {s : Nat} {e : Edge} :
    e ∈ g.edgesFrom s ↔ e ∈ g.edges ∧ e.src = s := by
  simp [Graph.edgesFrom, List.mem_filter]

theorem mem_neighborsOut {g : Graph} {s n : Nat} :
    n ∈ g.neighborsOut s ↔ ∃ e ∈ g.edges, e.src = s ∧ e.tgt = n := by
  simp only [Graph.neighborsOut, List.mem_map, List.mem_reverse, mem_edgesFrom]
  constructor
  · rintro ⟨e, ⟨he, hs⟩, ht⟩
    exact ⟨e, he, hs, ht⟩
  · rintro ⟨e, he, hs, ht⟩
    exact ⟨e, ⟨he, hs⟩, ht⟩

theorem mem_neighborsIn {g : Graph} {s p : Nat} :
    p ∈ g.neighborsIn s ↔ ∃ e ∈ g.edges, e.src = p ∧ e.tgt = s := by
  simp only [Graph.neighborsIn, List.mem_map, List.mem_reverse, List.mem_filter,
    decide_eq_true_eq]
  constructor
  · rintro ⟨e, ⟨he, ht⟩, hs⟩
    exact ⟨e, he, hs, ht⟩
  · rintro ⟨e, he, hs, ht⟩
    exact ⟨e, ⟨he, ht⟩, hs⟩

theorem edge_eq_of_tgt_eq {g : Graph} (hn : (g.edges.map Edge.tgt).Nodup)
    {e1 e2 : Edge} (h1 : e1 ∈ g.edges) (h2 : e2 ∈ g.edges) (ht : e1.tgt = e2.tgt) :
    e1 = e2 :=
  List.inj_on_of_nodup_map hn h1 h2 ht

theorem findEdge_mem {g : Graph} {a b : Nat} {e : Edge} (h : g.findEdge a b = some e) :
    e ∈ g.edges ∧ e.src = a ∧ e.tgt = b := by
  have h1 := List.mem_of_find?_eq_some h
  have h2 := List.find?_some h
  rw [List.mem_reverse] at h1
  simp only [decide_eq_true_eq] at h2
  exact ⟨h1, h2.1, h2.2⟩

theorem findEdge_eq_some {g : Graph} (hn : (g.edges.map Edge.tgt).Nodup)
    {e : Edge} (he : e ∈ g.edges) :
    g.findEdge e.src e.tgt = some e := by
  rcases hfind : g.findEdge e.src e.tgt with _ | x
  · exfalso
    have := List.find?_eq_none.mp hfind e (List.mem_reverse.mpr he)
    simp at this
  · obtain ⟨hmem, -, htgt⟩ := findEdge_mem hfind
    rw [edge_eq_of_tgt_eq hn hmem he htgt]

theorem updateEdgeList_endpoints (a b : Nat) (w : Grapheme) :
    ∀ l : List Edge, (∃ e0 ∈ l, e0.src = a ∧ e0.tgt = b) →
      (updateEdgeList a b w l).map Edge.tgt = l.map Edge.tgt ∧
        (updateEdgeList a b w l).map Edge.src = l.map Edge.src := by
  intro l
  induction l with
  | nil => rintro ⟨e0, h, -⟩; cases h
  | cons e rest ih =>
    rintro ⟨e0, he0, hsrc, htgt⟩
    by_cases hany : rest.any (fun e2 => decide (e2.src = a ∧ e2.tgt = b)) = true
    · have hex : ∃ e1 ∈ rest, e1.src = a ∧ e1.tgt = b := by
        simpa using List.any_eq_true.mp hany
      obtain ⟨h1, h2⟩ := ih hex
      rw [updateEdgeList, if_pos hany]
      simp [h1, h2]
    · have hhead : e.src = a ∧ e.tgt = b := by
        rcases List.mem_cons.mp he0 with rfl | hmem
        · exact ⟨hsrc, htgt⟩
        · exfalso
          have hf : rest.any (fun e2 => decide (e2.src = a ∧ e2.tgt = b)) = false := by
            simpa using hany
          have := List.any_eq_false.mp hf e0 hmem
          simp [hsrc, htgt] at this
      rw [updateEdgeList, if_neg hany, if_pos hhead]
      simp [hhead.1, hhead.2]

theorem updateEdgeList_eq_map (w : Grapheme) :
    ∀ l : List Edge, (l.map Edge.tgt).Nodup → ∀ e ∈ l,
      updateEdgeList e.src e.tgt w l
        = l.map (fun e2 => if e2 = e then ⟨e.src, e.tgt, w⟩ else e2) := by
  intro l
  induction l with
  | nil => intro _ e he; cases he
  | cons f rest ih =>
    intro hn e he
    have hn2 : (rest.map Edge.tgt).Nodup := (List.nodup_cons.mp hn).2
    have hft : ¬ f.tgt ∈ rest.map Edge.tgt := (List.nodup_cons.mp hn).1
    rcases List.mem_cons.mp he with rfl | hmem
    · have hany : rest.any (fun e2 => decide (e2.src = e.src ∧ e2.tgt = e.tgt)) = false := by
        rw [List.any_eq_false]
        intro e2 he2
        simp only [decide_eq_true_eq, not_and]
        intro _ ht
        exact absurd (ht ▸ List.mem_map_of_mem Edge.tgt he2) hft
      rw [updateEdgeList, if_neg (by rw [hany]; exact Bool.false_ne_true), if_pos ⟨rfl, rfl⟩]
      have hrest : rest.map (fun e2 => if e2 = e then (⟨e.src, e.tgt, w⟩ : Edge) else e2)
          = rest := by
        have hid : rest.map (fun e2 => if e2 = e then (⟨e.src, e.tgt, w⟩ : Edge) else e2)
            = rest.map id := by
          apply List.map_congr_left
          intro e2 he2
          have hne : e2 ≠ e := by
            intro h
            exact hft (h ▸ List.mem_map_of_mem Edge.tgt he2)
          simp [hne]
        rw [hid, List.map_id]
      simp [hrest]
    · have hany : rest.any (fun e2 => decide (e2.src = e.src ∧ e2.tgt = e.tgt)) = true := by
        rw [List.any_eq_true]
        exact ⟨e, hmem, by simp⟩
      have hfe : f ≠ e := by
        intro h
        exact hft (h ▸ List.mem_map_of_mem Edge.tgt hmem)
      rw [updateEdgeList, if_pos hany]
      simp only [List.map_cons, if_neg hfe]
      rw [ih hn2 e hmem]

theorem updateEdge_WF {g : Graph} (hWF : Graph.WF g) {a b : Nat} (w : Grapheme)
    (hex : ∃ e0 ∈ g.edges, e0.src = a ∧ e0.tgt = b) :
    Graph.WF (g.updateEdge a b w) ∧ (g.updateEdge a b w).nodeCount = g.nodeCount := by
  obtain ⟨htgt, hsrc⟩ := updateEdgeList_endpoints a b w g.edges hex
  refine ⟨⟨?_, ?_⟩, rfl⟩
  · intro e he
    constructor
    · have hm : e.src ∈ (updateEdgeList a b w g.edges).map Edge.src :=
        List.mem_map_of_mem Edge.src he
      rw [hsrc] at hm
      obtain ⟨e0, he0, heq⟩ := List.mem_map.mp hm
      exact heq ▸ (hWF.1 e0 he0).1
    · have hm : e.tgt ∈ (updateEdgeList a b w g.edges).map Edge.tgt :=
        List.mem_map_of_mem Edge.tgt he
      rw [htgt] at hm
      obtain ⟨e0, he0, heq⟩ := List.mem_map.mp hm
      exact heq ▸ (hWF.1 e0 he0).2
  · show ((updateEdgeList a b w g.edges).map Edge.tgt).Nodup
    rw [htgt]
    exact hWF.2

theorem findNextStateGo_some (g : Graph) (cur : Nat) (gr : Grapheme) (col : Bool) :
    ∀ (L : List Nat) (n : Nat) (g' : Graph),
      findNextStateGo g cur gr col L = (some n, g') →
      n ∈ L ∧ (g' = g ∨ ∃ e ∈ g.edges, e.src = cur ∧ e.tgt = n ∧
        e.lbl.value = gr.value ∧
        g' = g.updateEdge cur n (Grapheme.new gr.chars (min e.lbl.minimum gr.minimum)
              (max e.lbl.maximum gr.maximum) col)) := by
  intro L
  induction L with
  | nil => intro n g' h; cases h
  | cons next rest ih =>
    intro n g' h
    rcases hfe : g.findEdge cur next with _ | e
    · simp only [findNextStateGo, hfe] at h
      obtain ⟨hn, hg⟩ := ih n g' h
      exact ⟨List.mem_cons_of_mem next hn, hg⟩
    · simp only [findNextStateGo, hfe] at h
      obtain ⟨hmem, hesrc, hetgt⟩ := findEdge_mem hfe
      by_cases hv : e.lbl.value ≠ gr.value
      · rw [if_pos hv] at h
        obtain ⟨hn, hg⟩ := ih n g' h
        exact ⟨List.mem_cons_of_mem next hn, hg⟩
      · rw [if_neg hv] at h
        by_cases hw : e.lbl.maximum + 1 = gr.maximum
        · rw [if_pos hw] at h
          injection h with h1 h2
          injection h1 with h1
          subst h1
          exact ⟨List.mem_cons_self next rest,
            Or.inr ⟨e, hmem, hesrc, hetgt, not_ne_iff.mp hv, h2.symm⟩⟩
        · rw [if_neg hw] at h
          by_cases hq : e.lbl.maximum = gr.maximum
          · rw [if_pos hq] at h
            injection h with h1 h2
            injection h1 with h1
            subst h1
            exact ⟨List.mem_cons_self next rest, Or.inl h2.symm⟩
          · rw [if_neg hq] at h
            obtain ⟨hn, hg⟩ := ih n g' h
            exact ⟨List.mem_cons_of_mem next hn, hg⟩

theorem getNextState_WF (d : DFA) (cur : Nat) (g : Grapheme)
    (hWF : Graph.WF d.graph) (hcur : cur < d.graph.nodeCount) :
    Graph.WF (getNextState d cur g).1.graph ∧
      (getNextState d cur g).2 < (getNextState d cur g).1.graph.nodeCount ∧
      d.graph.nodeCount ≤ (getNextState d cur g).1.graph.nodeCount := by
  rcases hshape : findNextState d.graph cur g d.is_output_colorized with ⟨o, g'⟩
  cases o with
  | none =>
    have hgn : getNextState d cur g = addNewState d cur g := by
      simp only [getNextState, hshape]
    rw [hgn]
    refine ⟨⟨?_, ?_⟩, ?_, ?_⟩
    · intro e he
      rcases List.mem_append.mp he with hmem | hnew
      · exact ⟨Nat.lt_succ_of_lt (hWF.1 e hmem).1, Nat.lt_succ_of_lt (hWF.1 e hmem).2⟩
      · rcases List.mem_singleton.mp hnew with rfl
        exact ⟨Nat.lt_succ_of_lt hcur, Nat.lt_succ_self _⟩
    · show ((d.graph.edges ++ [(⟨cur, d.graph.nodeCount, g⟩ : Edge)]).map Edge.tgt).Nodup
      rw [List.map_append]
      rw [List.nodup_append]
      refine ⟨hWF.2, List.nodup_singleton _, ?_⟩
      intro t ht hts
      rcases List.mem_singleton.mp hts with rfl
      obtain ⟨e0, he0, heq⟩ := List.mem_map.mp ht
      exact absurd heq (Nat.ne_of_lt (hWF.1 e0 he0).2)
    · exact Nat.lt_succ_self _
    · exact Nat.le_succ _
  | some n =>
    have hres := findNextStateGo_some d.graph cur g d.is_output_colorized
      (d.graph.neighborsOut cur) n g' (by rw [findNextState] at hshape; exact hshape)
    have hgn : getNextState d cur g = ({ d with graph := g' }, n) := by
      simp only [getNextState, hshape]
    rw [hgn]
    have hnlt : n < d.graph.nodeCount := by
      obtain ⟨e1, he1, -, ht1⟩ := mem_neighborsOut.mp hres.1
      exact ht1 ▸ (hWF.1 e1 he1).2
    rcases hres.2 with rfl | ⟨e, he, hesrc, hetgt, hval, rfl⟩
    · exact ⟨hWF, hnlt, le_refl _⟩
    · obtain ⟨hWF', hcount⟩ := updateEdge_WF hWF _ ⟨e, he, hesrc, hetgt⟩
      exact ⟨hWF', by rw [hcount]; exact hnlt, by rw [hcount]⟩

theorem getNextState_initial (d : DFA) (cur : Nat) (g : Grapheme) :
    (getNextState d cur g).1.initial_state = d.initial_state := by
  rcases hshape : findNextState d.graph cur g d.is_output_colorized with ⟨o, g'⟩
  cases o with
  | none =>
    have : getNextState d cur g = addNewState d cur g := by
      simp only [getNextState, hshape]
    rw [this]
    rfl
  | some n =>
    have : getNextState d cur g = ({ d with graph := g' }, n) := by
      simp only [getNextState, hshape]
    rw [this]

theorem insertGo_WF (gs : List Grapheme) :
    ∀ (d : DFA) (cur : Nat), Graph.WF d.graph → cur < d.graph.nodeCount →
      Graph.WF (insertGo d cur gs).1.graph ∧
        d.graph.nodeCount ≤ (insertGo d cur gs).1.graph.nodeCount ∧
        (insertGo d cur gs).1.initial_state = d.initial_state := by
  induction gs with
  | nil => exact fun d cur hWF _ => ⟨hWF, le_refl _, rfl⟩
  | cons g rest ih =>
    intro d cur hWF hcur
    have hd1 : ({ d with alphabet := alphabetInsert g d.alphabet } : DFA).graph = d.graph := rfl
    have hg := getNextState_WF { d with alphabet := alphabetInsert g d.alphabet } cur g hWF hcur
    have hini := getNextState_initial { d with alphabet := alphabetInsert g d.alphabet } cur g
    have hrec := ih (getNextState { d with alphabet := alphabetInsert g d.alphabet } cur g).1
      (getNextState { d with alphabet := alphabetInsert g d.alphabet } cur g).2
      hg.1 hg.2.1
    refine ⟨hrec.1, le_trans hg.2.2 hrec.2.1, ?_⟩
    show (insertGo (getNextState { d with alphabet := alphabetInsert g d.alphabet } cur g).1
        (getNextState { d with alphabet := alphabetInsert g d.alphabet } cur g).2
        rest).1.initial_state = d.initial_state
    rw [hrec.2.2, hini]

theorem insert_WF {d : DFA} (c : List Grapheme)
    (hWF : Graph.WF d.graph) (hini : d.initial_state < d.graph.nodeCount) :
    Graph.WF (d.insert c).graph ∧ (d.insert c).initial_state < (d.insert c).graph.nodeCount := by
  obtain ⟨h1, h2, h3⟩ := insertGo_WF c d d.initial_state hWF hini
  refine ⟨h1, ?_⟩
  have hini2 : (d.insert c).initial_state = (insertGo d d.initial_state c).1.initial_state := rfl
  rw [hini2, h3]
  exact lt_of_lt_of_le hini h2

theorem buildDFA_WF (cls : List (List Grapheme)) :
    Graph.WF (buildDFA cls).graph ∧
      (buildDFA cls).initial_state < (buildDFA cls).graph.nodeCount := by
  have hgen : ∀ (l : List (List Grapheme)) (d : DFA),
      Graph.WF d.graph → d.initial_state < d.graph.nodeCount →
      Graph.WF (l.foldl DFA.insert d).graph ∧
        (l.foldl DFA.insert d).initial_state < (l.foldl DFA.insert d).graph.nodeCount := by
    intro l
    induction l with
    | nil => exact fun d h1 h2 => ⟨h1, h2⟩
    | cons c rest ih =>
      intro d h1 h2
      obtain ⟨h3, h4⟩ := insert_WF c h1 h2
      exact ih (d.insert c) h3 h4
  exact hgen cls (DFA.new false)
    ⟨fun e he => absurd he (List.not_mem_nil e), List.nodup_nil⟩
    (Nat.lt_succ_self 0)

theorem neighborsIn_shape {g : Graph} (hWF : Graph.WF g) (s : Nat) :
    g.neighborsIn s = [] ∨
      ∃ e0 ∈ g.edges, e0.tgt = s ∧ g.neighborsIn s = [e0.src] := by
  have hnd : g.edges.Nodup := List.Nodup.of_map Edge.tgt hWF.2
  rcases hf : g.edges.filter (fun e => decide (e.tgt = s)) with _ | ⟨e0, rest⟩
  · left
    rw [Graph.neighborsIn, hf]
    rfl
  · right
    have he0 : e0 ∈ g.edges.filter (fun e => decide (e.tgt = s)) := by
      rw [hf]; exact List.mem_cons_self e0 rest
    have he0e : e0 ∈ g.edges ∧ e0.tgt = s := by
      have := List.mem_filter.mp he0
      simpa using this
    have hrest : rest = [] := by
      rcases rest with _ | ⟨x, xs⟩
      · rfl
      · exfalso
        have hx : x ∈ g.edges.filter (fun e => decide (e.tgt = s)) := by
          rw [hf]; exact List.mem_cons_of_mem e0 (List.mem_cons_self x xs)
        have hxe : x ∈ g.edges ∧ x.tgt = s := by
          have := List.mem_filter.mp hx
          simpa using this
        have hxeq : x = e0 :=
          edge_eq_of_tgt_eq hWF.2 hxe.1 he0e.1 (by rw [hxe.2, he0e.2])
        have hfnd : (g.edges.filter (fun e => decide (e.tgt = s))).Nodup :=
          List.Nodup.filter _ hnd
        rw [hf, hxeq] at hfnd
        simp at hfnd
    refine ⟨e0, he0e.1, he0e.2, ?_⟩
    rw [Graph.neighborsIn, hf, hrest]
    rfl

theorem firstMatchingParent_eq_some {g : Graph} (hWF : Graph.WF g)
    (lbl : Grapheme) (s p : Nat) :
    firstMatchingParent g lbl s = some p ↔
      ∃ e ∈ g.edges, e.src = p ∧ e.tgt = s ∧ e.lbl.value = lbl.value ∧
        (e.lbl.maximum = lbl.maximum ∨ e.lbl.minimum = lbl.minimum) := by
  rcases neighborsIn_shape hWF s with hni | ⟨e0, he0, htgt, hni⟩
  · rw [firstMatchingParent, hni]
    constructor
    · intro h
      exact Option.noConfusion h
    · rintro ⟨e, he, hsrc, hts, -⟩
      exfalso
      have hmem : e.src ∈ g.neighborsIn s := mem_neighborsIn.mpr ⟨e, he, rfl, hts⟩
      rw [hni] at hmem
      cases hmem
  · have hfe : g.findEdge e0.src s = some e0 := by
      have := findEdge_eq_some hWF.2 he0
      rw [htgt] at this
      exact this
    rw [firstMatchingParent, hni]
    by_cases hm : parentMatches g lbl s e0.src = true
    · rw [List.find?_cons_of_pos _ hm]
      have hmp : e0.lbl.value = lbl.value ∧
          (e0.lbl.maximum = lbl.maximum ∨ e0.lbl.minimum = lbl.minimum) := by
        rw [parentMatches, hfe] at hm
        simpa using hm
      constructor
      · intro h
        injection h with h
        exact ⟨e0, he0, h, htgt, hmp⟩
      · rintro ⟨e, he, hsrc, hts, -⟩
        have heq : e = e0 := edge_eq_of_tgt_eq hWF.2 he he0 (by rw [hts, htgt])
        rw [heq] at hsrc
        rw [hsrc]
    · rw [List.find?_cons_of_neg _ (by simpa using hm)]
      constructor
      · intro h
        exact Option.noConfusion h
      · rintro ⟨e, he, hsrc, hts, hval, hbound⟩
        exfalso
        have heq : e = e0 := edge_eq_of_tgt_eq hWF.2 he he0 (by rw [hts, htgt])
        rw [heq] at hval hbound
        apply hm
        rw [parentMatches, hfe]
        exact decide_eq_true_eq.mpr ⟨hval, hbound⟩

theorem gps_mem {g : Graph} (lbl : Grapheme) (a : List Nat) :
    ∀ (x0 : List Nat) (x : Nat),
      x ∈ a.foldl (gpsStep g lbl) x0 ↔
        x ∈ x0 ∨ ∃ s ∈ a, firstMatchingParent g lbl s = some x := by
  induction a with
  | nil => simp
  | cons s t ih =>
    intro x0 x
    rw [List.foldl_cons, ih]
    rcases hfm : firstMatchingParent g lbl s with _ | p
    · rw [gpsStep, hfm]
      constructor
      · rintro (hx | hex)
        · exact Or.inl hx
        · exact Or.inr (by
            obtain ⟨s', hs', h⟩ := hex
            exact ⟨s', List.mem_cons_of_mem s hs', h⟩)
      · rintro (hx | ⟨s', hs', h⟩)
        · exact Or.inl hx
        · rcases List.mem_cons.mp hs' with rfl | hmem
          · rw [hfm] at h; cases h
          · exact Or.inr ⟨s', hmem, h⟩
    · rw [gpsStep, hfm]
      constructor
      · rintro (hx | hex)
        · rcases mem_setInsert.mp hx with hx0 | rfl
          · exact Or.inl hx0
          · exact Or.inr ⟨s, List.mem_cons_self s t, hfm⟩
        · obtain ⟨s', hs', h⟩ := hex
          exact Or.inr ⟨s', List.mem_cons_of_mem s hs', h⟩
      · rintro (hx | ⟨s', hs', h⟩)
        · exact Or.inl (mem_setInsert.mpr (Or.inl hx))
        · rcases List.mem_cons.mp hs' with rfl | hmem
          · rw [hfm] at h
            injection h with h
            exact Or.inl (mem_setInsert.mpr (Or.inr h.symm))
          · exact Or.inr ⟨s', hmem, h⟩

theorem findNextGo_eq_spec {g : Graph} (hn : (g.edges.map Edge.tgt).Nodup)
    (cur : Nat) (gr : Grapheme) (col : Bool) :
    ∀ L : List Edge, (∀ e ∈ L, e ∈ g.edges ∧ e.src = cur) →
      findNextStateGo g cur gr col (L.map Edge.tgt) = findNextSpecGo g gr L := by
  intro L
  induction L with
  | nil => intro _; rfl
  | cons e rest ih =>
    intro hL
    obtain ⟨he, hsrc⟩ := hL e (List.mem_cons_self e rest)
    have hfe : g.findEdge cur e.tgt = some e := by
      rw [← hsrc]
      exact findEdge_eq_some hn he
    have hrest : ∀ e2 ∈ rest, e2 ∈ g.edges ∧ e2.src = cur :=
      fun e2 h2 => hL e2 (List.mem_cons_of_mem e h2)
    rw [List.map_cons]
    by_cases hv0 : e.lbl.value ≠ gr.value
    · have hcode : findNextStateGo g cur gr col (e.tgt :: rest.map Edge.tgt)
          = findNextStateGo g cur gr col (rest.map Edge.tgt) := by
        simp only [findNextStateGo, hfe]
        rw [if_pos hv0]
      have hspec : findNextSpecGo g gr (e :: rest) = findNextSpecGo g gr rest := by
        simp only [findNextSpecGo]
        rw [if_pos hv0]
      rw [hcode, hspec]
      exact ih hrest
    · have hval : e.lbl.value = gr.value := not_ne_iff.mp hv0
      by_cases hw : e.lbl.maximum + 1 = gr.maximum
      · have hwspec : (e.lbl.maximum : Int) = (gr.maximum : Int) - 1 := by omega
        have hcode : findNextStateGo g cur gr col (e.tgt :: rest.map Edge.tgt)
            = (some e.tgt, g.updateEdge cur e.tgt
                (Grapheme.new gr.chars (min e.lbl.minimum gr.minimum)
                  (max e.lbl.maximum gr.maximum) col)) := by
          simp only [findNextStateGo, hfe]
          rw [if_neg hv0, if_pos hw]
        have hspec : findNextSpecGo g gr (e :: rest)
            = (some e.tgt,
               { g with
                 edges := g.edges.map (fun e2 =>
                   if e2 = e then
                     { e2 with
                       lbl := ⟨e.lbl.value, min e.lbl.minimum gr.minimum,
                               max e.lbl.maximum gr.maximum⟩ }
                   else e2) }) := by
          simp only [findNextSpecGo]
          rw [if_neg hv0, if_pos hwspec]
        rw [hcode, hspec]
        have hG : g.updateEdge cur e.tgt
            (Grapheme.new gr.chars (min e.lbl.minimum gr.minimum)
              (max e.lbl.maximum gr.maximum) col)
            = { g with
                edges := g.edges.map (fun e2 =>
                  if e2 = e then
                    { e2 with
                      lbl := ⟨e.lbl.value, min e.lbl.minimum gr.minimum,
                              max e.lbl.maximum gr.maximum⟩ }
                  else e2) } := by
          rw [Graph.updateEdge]
          have hedges : updateEdgeList cur e.tgt
              (Grapheme.new gr.chars (min e.lbl.minimum gr.minimum)
                (max e.lbl.maximum gr.maximum) col) g.edges
              = g.edges.map (fun e2 =>
                  if e2 = e then
                    { e2 with
                      lbl := ⟨e.lbl.value, min e.lbl.minimum gr.minimum,
                              max e.lbl.maximum gr.maximum⟩ }
                  else e2) := by
            rw [← hsrc, updateEdgeList_eq_map _ g.edges hn e he]
            apply List.map_congr_left
            intro e2 _
            by_cases h2 : e2 = e
            · subst h2
              simp [Grapheme.new, Grapheme.chars, hval]
            · simp [h2]
          rw [hedges]
        rw [hG]
      · have hwspec : ¬ (e.lbl.maximum : Int) = (gr.maximum : Int) - 1 := by omega
        by_cases hq : e.lbl.maximum = gr.maximum
        · have hcode : findNextStateGo g cur gr col (e.tgt :: rest.map Edge.tgt)
              = (some e.tgt, g) := by
            simp only [findNextStateGo, hfe]
            rw [if_neg hv0, if_neg hw, if_pos hq]
          have hspec : findNextSpecGo g gr (e :: rest) = (some e.tgt, g) := by
            simp only [findNextSpecGo]
            rw [if_neg hv0, if_neg hwspec, if_pos hq]
          rw [hcode, hspec]
        · have hcode : findNextStateGo g cur gr col (e.tgt :: rest.map Edge.tgt)
              = findNextStateGo g cur gr col (rest.map Edge.tgt) := by
            simp only [findNextStateGo, hfe]
            rw [if_neg hv0, if_neg hw, if_neg hq]
          have hspec : findNextSpecGo g gr (e :: rest) = findNextSpecGo g gr rest := by
            simp only [findNextSpecGo]
            rw [if_neg hv0, if_neg hwspec, if_neg hq]
          rw [hcode, hspec]
          exact ih hrest

theorem recreateTargets_snd_aligned {g : Graph} (hn : (g.edges.map Edge.tgt).Nodup)
    (fins : List Nat) (p0 : List (List Nat)) (i rep : Nat) :
    ∀ (L : List Edge) (acc : List Edge × List Nat) (x : Nat),
      (∀ e ∈ L, e ∈ g.edges ∧ e.src = rep) →
      (x ∈ (recreateTargets g fins p0 i rep (L.map Edge.tgt) acc).2 ↔
        x ∈ acc.2 ∨ ∃ e ∈ L, e.tgt ∈ fins ∧ (stateMapping p0 e.tgt).getD 0 = x) := by
  intro L
  induction L with
  | nil =>
    intro acc x _
    simp [recreateTargets]
  | cons e rest ih =>
    intro acc x hL
    obtain ⟨he, hsrc⟩ := hL e (List.mem_cons_self e rest)
    have hfe : g.findEdge rep e.tgt = some e := by
      rw [← hsrc]
      exact findEdge_eq_some hn he
    have hrest : ∀ e2 ∈ rest, e2 ∈ g.edges ∧ e2.src = rep :=
      fun e2 h2 => hL e2 (List.mem_cons_of_mem e h2)
    rw [List.map_cons]
    have hstep : recreateTargets g fins p0 i rep (e.tgt :: rest.map Edge.tgt) acc
        = recreateTargets g fins p0 i rep (rest.map Edge.tgt)
            (acc.1 ++ [⟨i, (stateMapping p0 e.tgt).getD 0, e.lbl⟩],
             if e.tgt ∈ fins then setInsert ((stateMapping p0 e.tgt).getD 0) acc.2
             else acc.2) := by
      simp only [recreateTargets, hfe]
    rw [hstep, ih _ x hrest]
    by_cases hf : e.tgt ∈ fins
    · rw [if_pos hf]
      constructor
      · rintro (hx | ⟨e2, h2, h3, h4⟩)
        · rcases mem_setInsert.mp hx with hx0 | rfl
          · exact Or.inl hx0
          · exact Or.inr ⟨e, List.mem_cons_self e rest, hf, rfl⟩
        · exact Or.inr ⟨e2, List.mem_cons_of_mem e h2, h3, h4⟩
      · rintro (hx | ⟨e2, h2, h3, h4⟩)
        · exact Or.inl (mem_setInsert.mpr (Or.inl hx))
        · rcases List.mem_cons.mp h2 with rfl | hmem
          · exact Or.inl (mem_setInsert.mpr (Or.inr h4.symm))
          · exact Or.inr ⟨e2, hmem, h3, h4⟩
    · rw [if_neg hf]
      constructor
      · rintro (hx | ⟨e2, h2, h3, h4⟩)
        · exact Or.inl hx
        · exact Or.inr ⟨e2, List.mem_cons_of_mem e h2, h3, h4⟩
      · rintro (hx | ⟨e2, h2, h3, h4⟩)
        · exact Or.inl hx
        · rcases List.mem_cons.mp h2 with rfl | hmem
          · exact absurd h3 hf
          · exact Or.inr ⟨e2, hmem, h3, h4⟩

theorem recreateGo_snd_mem {g : Graph} (hn : (g.edges.map Edge.tgt).Nodup)
    (fins : List Nat) (p0 : List (List Nat)) (pick : List Nat → Nat) :
    ∀ (l : List (Nat × List Nat)) (acc : List Edge × List Nat) (x : Nat),
      x ∈ (recreateGo g fins p0 pick l acc).2 ↔
        x ∈ acc.2 ∨ ∃ ic ∈ l, ∃ e ∈ g.edges, e.src = pick ic.2 ∧ e.tgt ∈ fins ∧
          (stateMapping p0 e.tgt).getD 0 = x := by
  intro l
  induction l with
  | nil =>
    intro acc x
    simp [recreateGo]
  | cons ic rest ih =>
    intro acc x
    have hstep : recreateGo g fins p0 pick (ic :: rest) acc
        = recreateGo g fins p0 pick rest
            (recreateTargets g fins p0 ic.1 (pick ic.2)
              (g.neighborsOut (pick ic.2)) acc) := rfl
    rw [hstep, ih]
    have hL : ∀ e ∈ (g.edgesFrom (pick ic.2)).reverse,
        e ∈ g.edges ∧ e.src = pick ic.2 := by
      intro e he
      rw [List.mem_reverse] at he
      exact mem_edgesFrom.mp he
    have hinner := recreateTargets_snd_aligned hn fins p0 ic.1 (pick ic.2)
      ((g.edgesFrom (pick ic.2)).reverse) acc x hL
    rw [show g.neighborsOut (pick ic.2)
        = ((g.edgesFrom (pick ic.2)).reverse).map Edge.tgt from rfl, hinner]
    constructor
    · rintro ((hx | ⟨e, hmem, h3, h4⟩) | ⟨ic2, h2, hrest2⟩)
      · exact Or.inl hx
      · rw [List.mem_reverse] at hmem
        obtain ⟨heg, hes⟩ := mem_edgesFrom.mp hmem
        exact Or.inr ⟨ic, List.mem_cons_self ic rest, e, heg, hes, h3, h4⟩
      · exact Or.inr ⟨ic2, List.mem_cons_of_mem ic h2, hrest2⟩
    · rintro (hx | ⟨ic2, h2, e, heg, hes, h3, h4⟩)
      · exact Or.inl (Or.inl hx)
      · rcases List.mem_cons.mp h2 with rfl | hmem
        · refine Or.inl (Or.inr ⟨e, ?_, h3, h4⟩)
          rw [List.mem_reverse]
          exact mem_edgesFrom.mpr ⟨heg, hes⟩
        · exact Or.inr ⟨ic2, hmem, e, heg, hes, h3, h4⟩

theorem enum_exists_iff {α : Type} (p : List α) (P : α → Prop) :
    (∃ ic ∈ p.enum, P ic.2) ↔ ∃ c ∈ p, P c := by
  constructor
  · rintro ⟨⟨i, c⟩, hmem, hP⟩
    have hg : p[i]? = some c := List.mk_mem_enum_iff_getElem?.mp hmem
    obtain ⟨hi, he⟩ := List.getElem?_eq_some.mp hg
    exact ⟨c, he ▸ List.getElem_mem hi, hP⟩
  · rintro ⟨c, hmem, hP⟩
    obtain ⟨i, hi, he⟩ := List.getElem_of_mem hmem
    refine ⟨(i, c), ?_, hP⟩
    rw [List.mk_mem_enum_iff_getElem?, List.getElem?_eq_getElem hi, he]

theorem findNextSpecGo_none {g : Graph} (gr : Grapheme) :
    ∀ (L : List Edge) (res : Graph), findNextSpecGo g gr L = (none, res) →
      ∀ e ∈ L, e.lbl.value ≠ gr.value ∨
        (¬ (e.lbl.maximum : Int) = (gr.maximum : Int) - 1 ∧
          e.lbl.maximum ≠ gr.maximum) := by
  intro L
  induction L with
  | nil => intro res _ e he; cases he
  | cons e0 rest ih =>
    intro res h e he
    by_cases hv : e0.lbl.value ≠ gr.value
    · have hh : findNextSpecGo g gr (e0 :: rest) = findNextSpecGo g gr rest := by
        simp only [findNextSpecGo]
        rw [if_pos hv]
      rw [hh] at h
      rcases List.mem_cons.mp he with rfl | hmem
      · exact Or.inl hv
      · exact ih res h e hmem
    · by_cases hw : (e0.lbl.maximum : Int) = (gr.maximum : Int) - 1
      · exfalso
        have hfst : (findNextSpecGo g gr (e0 :: rest)).1 = some e0.tgt := by
          simp only [findNextSpecGo]
          rw [if_neg hv, if_pos hw]
        rw [h] at hfst
        exact Option.noConfusion hfst
      · by_cases hq : e0.lbl.maximum = gr.maximum
        · exfalso
          have hfst : (findNextSpecGo g gr (e0 :: rest)).1 = some e0.tgt := by
            simp only [findNextSpecGo]
            rw [if_neg hv, if_neg hw, if_pos hq]
          rw [h] at hfst
          exact Option.noConfusion hfst
        · have hh : findNextSpecGo g gr (e0 :: rest) = findNextSpecGo g gr rest := by
            simp only [findNextSpecGo]
            rw [if_neg hv, if_neg hw, if_neg hq]
          rw [hh] at h
          rcases List.mem_cons.mp he with rfl | hmem
          · exact Or.inr ⟨hw, hq⟩
          · exact ih res h e hmem

theorem edgesFrom_map_replace (g : Graph) (e : Edge) (w : Grapheme) (s : Nat) :
    Graph.edgesFrom
        { g with
          edges := g.edges.map (fun e2 =>
            if e2 = e then (⟨e.src, e.tgt, w⟩ : Edge) else e2) } s
      = (g.edgesFrom s).map (fun e2 =>
          if e2 = e then (⟨e.src, e.tgt, w⟩ : Edge) else e2) := by
  show (g.edges.map (fun e2 => if e2 = e then (⟨e.src, e.tgt, w⟩ : Edge) else e2)).filter
      (fun e2 => decide (e2.src = s))
    = (g.edges.filter (fun e2 => decide (e2.src = s))).map (fun e2 =>
        if e2 = e then (⟨e.src, e.tgt, w⟩ : Edge) else e2)
  rw [List.filter_map]
  congr 1
  apply List.filter_congr
  intro e2 _
  by_cases h2 : e2 = e
  · subst h2
    simp
  · simp [h2]

theorem updateEdge_values_nodup {g : Graph} (hn : (g.edges.map Edge.tgt).Nodup)
    (hdv : ∀ s, ((g.edgesFrom s).map (fun e => e.lbl.value)).Nodup)
    {e : Edge} (he : e ∈ g.edges) (w : Grapheme) (hw : w.value = e.lbl.value) :
    ∀ s, (((g.updateEdge e.src e.tgt w).edgesFrom s).map (fun e2 => e2.lbl.value)).Nodup := by
  intro s
  have hupd := updateEdgeList_eq_map w g.edges hn e he
  rw [show g.updateEdge e.src e.tgt w
      = { g with
          edges := g.edges.map (fun e2 =>
            if e2 = e then (⟨e.src, e.tgt, w⟩ : Edge) else e2) } from by
    rw [Graph.updateEdge, hupd]]
  rw [edgesFrom_map_replace, List.map_map]
  have hfun : ((fun e2 : Edge => e2.lbl.value) ∘ (fun e2 =>
      if e2 = e then (⟨e.src, e.tgt, w⟩ : Edge) else e2)) = fun e2 : Edge => e2.lbl.value := by
    funext e2
    by_cases h2 : e2 = e
    · subst h2
      simp [hw]
    · simp [h2]
  rw [hfun]
  exact hdv s

theorem getNextState_distinct (d : DFA) (cur : Nat) (gr : Grapheme)
    (hWF : Graph.WF d.graph)
    (hdv : ∀ s, ((d.graph.edgesFrom s).map (fun e => e.lbl.value)).Nodup)
    (hc : contractStepOK d.graph cur gr = true) :
    ∀ s, (((getNextState d cur gr).1.graph.edgesFrom s).map (fun e => e.lbl.value)).Nodup := by
  rcases hshape : findNextState d.graph cur gr d.is_output_colorized with ⟨o, g'⟩
  cases o with
  | some n =>
    have hres := findNextStateGo_some d.graph cur gr d.is_output_colorized
      (d.graph.neighborsOut cur) n g' (by rw [findNextState] at hshape; exact hshape)
    have hgn : getNextState d cur gr = ({ d with graph := g' }, n) := by
      simp only [getNextState, hshape]
    rw [hgn]
    rcases hres.2 with rfl | ⟨e, he, hesrc, hetgt, hval, rfl⟩
    · exact hdv
    · intro s
      have hkey := updateEdge_values_nodup hWF.2 hdv he
        (Grapheme.new gr.chars (min e.lbl.minimum gr.minimum)
          (max e.lbl.maximum gr.maximum) d.is_output_colorized) hval.symm s
      rw [← hesrc, ← hetgt]
      exact hkey
  | none =>
    have hgn : getNextState d cur gr = addNewState d cur gr := by
      simp only [getNextState, hshape]
    rw [hgn]
    have hLrev : ∀ e ∈ (d.graph.edgesFrom cur).reverse,
        e ∈ d.graph.edges ∧ e.src = cur := by
      intro e he
      rw [List.mem_reverse] at he
      exact mem_edgesFrom.mp he
    have hsp : findNextSpecGo d.graph gr ((d.graph.edgesFrom cur).reverse) = (none, g') := by
      rw [← findNextGo_eq_spec hWF.2 cur gr d.is_output_colorized _ hLrev]
      rw [findNextState] at hshape
      exact hshape
    have hnone := findNextSpecGo_none gr _ g' hsp
    have hnoval : ¬ gr.value ∈ (d.graph.edgesFrom cur).map (fun e => e.lbl.value) := by
      intro hval
      obtain ⟨e, hemem, heval⟩ := List.mem_map.mp hval
      have hcon : e.lbl.value ≠ gr.value ∨
          (e.lbl.maximum = gr.maximum ∨ e.lbl.maximum + 1 = gr.maximum) := by
        rw [contractStepOK] at hc
        have := List.all_eq_true.mp hc e hemem
        simpa using this
      have hdisj := hnone e (List.mem_reverse.mpr hemem)
      rcases hcon with hcv | hcm
      · exact hcv heval
      · rcases hdisj with hdv2 | ⟨hdm1, hdm2⟩
        · exact hdv2 heval
        · rcases hcm with h1 | h2
          · exact hdm2 h1
          · exact hdm1 (by omega)
    intro s
    by_cases hs : s = cur
    · subst hs
      have hef : Graph.edgesFrom (addNewState d s gr).1.graph s
          = d.graph.edgesFrom s ++ [⟨s, d.graph.nodeCount, gr⟩] := by
        show (d.graph.edges ++ [(⟨s, d.graph.nodeCount, gr⟩ : Edge)]).filter
            (fun e => decide (e.src = s)) = _
        rw [List.filter_append]
        congr 1
        simp
      rw [hef, List.map_append, List.nodup_append]
      refine ⟨hdv s, List.nodup_singleton _, ?_⟩
      intro v hv hvs
      rcases List.mem_singleton.mp hvs with rfl
      exact hnoval hv
    · have hef : Graph.edgesFrom (addNewState d cur gr).1.graph s
          = d.graph.edgesFrom s := by
        show (d.graph.edges ++ [(⟨cur, d.graph.nodeCount, gr⟩ : Edge)]).filter
            (fun e => decide (e.src = s)) = _
        rw [List.filter_append]
        have hsing : ([(⟨cur, d.graph.nodeCount, gr⟩ : Edge)]).filter
            (fun e => decide (e.src = s)) = [] := by
          apply List.filter_eq_nil_iff.mpr
          intro e he
          rcases List.mem_singleton.mp he with rfl
          simp only [decide_eq_true_eq]
          exact fun h => hs h.symm
        rw [hsing, List.append_nil]
        rfl
      rw [hef]
      exact hdv s

theorem insertGo_distinct (gs : List Grapheme) :
    ∀ (d : DFA) (cur : Nat),
      Graph.WF d.graph → cur < d.graph.nodeCount →
      (∀ s, ((d.graph.edgesFrom s).map (fun e => e.lbl.value)).Nodup) →
      insertContractGo d cur gs = true →
      ∀ s, (((insertGo d cur gs).1.graph.edgesFrom s).map (fun e => e.lbl.value)).Nodup := by
  induction gs with
  | nil => exact fun d cur _ _ hdv _ => hdv
  | cons g rest ih =>
    intro d cur hWF hcur hdv hc
    have hsplit : contractStepOK d.graph cur g = true ∧
        insertContractGo (getNextState { d with alphabet := alphabetInsert g d.alphabet } cur g).1
          (getNextState { d with alphabet := alphabetInsert g d.alphabet } cur g).2 rest
          = true := by
      rw [insertContractGo] at hc
      simpa using hc
    have hg := getNextState_WF { d with alphabet := alphabetInsert g d.alphabet } cur g hWF hcur
    have hd2 := getNextState_distinct { d with alphabet := alphabetInsert g d.alphabet } cur g
      hWF hdv hsplit.1
    have hrec := ih (getNextState { d with alphabet := alphabetInsert g d.alphabet } cur g).1
      (getNextState { d with alphabet := alphabetInsert g d.alphabet } cur g).2
      hg.1 hg.2.1 hd2 hsplit.2
    exact hrec

theorem insert_distinct {d : DFA} (c : List Grapheme)
    (hWF : Graph.WF d.graph) (hini : d.initial_state < d.graph.nodeCount)
    (hdv : ∀ s, ((d.graph.edgesFrom s).map (fun e => e.lbl.value)).Nodup)
    (hc : insertContractGo d d.initial_state c = true) :
    ∀ s, (((d.insert c).graph.edgesFrom s).map (fun e => e.lbl.value)).Nodup := by
  have := insertGo_distinct c d d.initial_state hWF hini hdv hc
  exact this

theorem build_distinct (cls : List (List Grapheme))
    (hc : insertionContractOK cls = true) :
    ∀ s, (((buildDFA cls).graph.edgesFrom s).map (fun e => e.lbl.value)).Nodup := by
  have hgen : ∀ (l : List (List Grapheme)) (d : DFA),
      Graph.WF d.graph → d.initial_state < d.graph.nodeCount →
      (∀ s, ((d.graph.edgesFrom s).map (fun e => e.lbl.value)).Nodup) →
      insertionContractOKFrom d l = true →
      ∀ s, (((l.foldl DFA.insert d).graph.edgesFrom s).map (fun e => e.lbl.value)).Nodup := by
    intro l
    induction l with
    | nil => exact fun d _ _ hdv _ => hdv
    | cons c rest ih =>
      intro d h1 h2 hdv hcf
      have hsplit : insertContractGo d d.initial_state c = true ∧
          insertionContractOKFrom (d.insert c) rest = true := by
        rw [insertionContractOKFrom] at hcf
        simpa using hcf
      obtain ⟨h3, h4⟩ := insert_WF c h1 h2
      exact ih (d.insert c) h3 h4 (insert_distinct c h1 h2 hdv hsplit.1) hsplit.2
  exact hgen cls (DFA.new false)
    ⟨fun e he => absurd he (List.not_mem_nil e), List.nodup_nil⟩
    (Nat.lt_succ_self 0)
    (fun s => by simp [DFA.new, Graph.edgesFrom])
    hc

theorem recreateTargets_fst_aligned {g : Graph} (hn : (g.edges.map Edge.tgt).Nodup)
    (fins : List Nat) (p0 : List (List Nat)) (i rep : Nat) :
    ∀ (L : List Edge) (acc : List Edge × List Nat),
      (∀ e ∈ L, e ∈ g.edges ∧ e.src = rep) →
      (recreateTargets g fins p0 i rep (L.map Edge.tgt) acc).1
        = acc.1 ++ L.map (fun e =>
            (⟨i, (stateMapping p0 e.tgt).getD 0, e.lbl⟩ : Edge)) := by
  intro L
  induction L with
  | nil =>
    intro acc _
    simp [recreateTargets]
  | cons e rest ih =>
    intro acc hL
    obtain ⟨he, hsrc⟩ := hL e (List.mem_cons_self e rest)
    have hfe : g.findEdge rep e.tgt = some e := by
      rw [← hsrc]
      exact findEdge_eq_some hn he
    have hrest : ∀ e2 ∈ rest, e2 ∈ g.edges ∧ e2.src = rep :=
      fun e2 h2 => hL e2 (List.mem_cons_of_mem e h2)
    rw [List.map_cons]
    have hstep : recreateTargets g fins p0 i rep (e.tgt :: rest.map Edge.tgt) acc
        = recreateTargets g fins p0 i rep (rest.map Edge.tgt)
            (acc.1 ++ [⟨i, (stateMapping p0 e.tgt).getD 0, e.lbl⟩],
             if e.tgt ∈ fins then setInsert ((stateMapping p0 e.tgt).getD 0) acc.2
             else acc.2) := by
      simp only [recreateTargets, hfe]
    rw [hstep, ih _ hrest]
    simp

theorem recreateGo_values_nodup {g : Graph} (hn : (g.edges.map Edge.tgt).Nodup)
    (hdv : ∀ s, ((g.edgesFrom s).map (fun e => e.lbl.value)).Nodup)
    (fins : List Nat) (p0 : List (List Nat)) (pick : List Nat → Nat) :
    ∀ (l : List (Nat × List Nat)) (acc : List Edge × List Nat),
      (l.map Prod.fst).Nodup →
      (∀ ic ∈ l, ∀ e ∈ acc.1, e.src ≠ ic.1) →
      (∀ s, ((acc.1.filter (fun e => decide (e.src = s))).map (fun e => e.lbl.value)).Nodup) →
      ∀ s, (((recreateGo g fins p0 pick l acc).1.filter
          (fun e => decide (e.src = s))).map (fun e => e.lbl.value)).Nodup := by
  intro l
  induction l with
  | nil =>
    intro acc _ _ hacc s
    exact hacc s
  | cons ic rest ih =>
    intro acc hidx hdisj hacc s
    have hstep : recreateGo g fins p0 pick (ic :: rest) acc
        = recreateGo g fins p0 pick rest
            (recreateTargets g fins p0 ic.1 (pick ic.2)
              (g.neighborsOut (pick ic.2)) acc) := rfl
    rw [hstep]
    have hL : ∀ e ∈ (g.edgesFrom (pick ic.2)).reverse,
        e ∈ g.edges ∧ e.src = pick ic.2 := by
      intro e he
      rw [List.mem_reverse] at he
      exact mem_edgesFrom.mp he
    have hfst : (recreateTargets g fins p0 ic.1 (pick ic.2)
          (g.neighborsOut (pick ic.2)) acc).1
        = acc.1 ++ ((g.edgesFrom (pick ic.2)).reverse).map (fun e =>
            (⟨ic.1, (stateMapping p0 e.tgt).getD 0, e.lbl⟩ : Edge)) := by
      rw [show g.neighborsOut (pick ic.2)
          = ((g.edgesFrom (pick ic.2)).reverse).map Edge.tgt from rfl]
      exact recreateTargets_fst_aligned hn fins p0 ic.1 (pick ic.2) _ acc hL
    have hidx2 : (rest.map Prod.fst).Nodup := (List.nodup_cons.mp hidx).2
    have hic1 : ¬ ic.1 ∈ rest.map Prod.fst := (List.nodup_cons.mp hidx).1
    apply ih
    · exact hidx2
    · intro ic2 h2 e he
      rw [hfst] at he
      rcases List.mem_append.mp he with hacc1 | hchunk
      · exact hdisj ic2 (List.mem_cons_of_mem ic h2) e hacc1
      · obtain ⟨e0, -, heq⟩ := List.mem_map.mp hchunk
        have hsrc0 : e.src = ic.1 := by rw [← heq]
        intro hbad
        apply hic1
        rw [show ic.1 = ic2.1 from by rw [← hsrc0, hbad]]
        exact List.mem_map_of_mem Prod.fst h2
    · intro s2
      rw [hfst, List.filter_append, List.map_append]
      by_cases hs2 : s2 = ic.1
      · subst hs2
        have hacc0 : acc.1.filter (fun e => decide (e.src = ic.1)) = [] := by
          apply List.filter_eq_nil_iff.mpr
          intro e he
          simp only [decide_eq_true_eq]
          exact hdisj ic (List.mem_cons_self ic rest) e he
        have hchunkf : (((g.edgesFrom (pick ic.2)).reverse).map (fun e =>
              (⟨ic.1, (stateMapping p0 e.tgt).getD 0, e.lbl⟩ : Edge))).filter
            (fun e => decide (e.src = ic.1))
            = ((g.edgesFrom (pick ic.2)).reverse).map (fun e =>
              (⟨ic.1, (stateMapping p0 e.tgt).getD 0, e.lbl⟩ : Edge)) := by
          apply List.filter_eq_self.mpr
          intro e he
          obtain ⟨e0, -, heq⟩ := List.mem_map.mp he
          rw [← heq]
          simp
        rw [hacc0, hchunkf, List.map_map]
        have hcomp : ((fun e : Edge => e.lbl.value) ∘ (fun e : Edge =>
            (⟨ic.1, (stateMapping p0 e.tgt).getD 0, e.lbl⟩ : Edge)))
            = fun e : Edge => e.lbl.value := by
          funext e
          rfl
        rw [hcomp]
        have : ((g.edgesFrom (pick ic.2)).reverse).map (fun e : Edge => e.lbl.value)
            = ((g.edgesFrom (pick ic.2)).map (fun e : Edge => e.lbl.value)).reverse := by
          rw [List.map_reverse]
        rw [show ([] : List Edge).map (fun e => e.lbl.value) = [] from rfl,
          List.nil_append, this, List.nodup_reverse]
        exact hdv (pick ic.2)
      · have hchunkf : (((g.edgesFrom (pick ic.2)).reverse).map (fun e =>
              (⟨ic.1, (stateMapping p0 e.tgt).getD 0, e.lbl⟩ : Edge))).filter
            (fun e => decide (e.src = s2)) = [] := by
          apply List.filter_eq_nil_iff.mpr
          intro e he
          obtain ⟨e0, -, heq⟩ := List.mem_map.mp he
          rw [← heq]
          simp only [decide_eq_true_eq]
          exact fun hbad => hs2 hbad.symm
        rw [hchunkf]
        rw [show ([] : List Edge).map (fun e => e.lbl.value) = [] from rfl,
          List.append_nil]
        exact hacc s2

theorem recreateGraph_values_nodup {d : DFA} (hWF : Graph.WF d.graph)
    (hdv : ∀ s, ((d.graph.edgesFrom s).map (fun e => e.lbl.value)).Nodup)
    (pick : List Nat → Nat) (p : List (List Nat)) (s : Nat) :
    (((recreateGraph d pick p).graph.edgesFrom s).map (fun e => e.lbl.value)).Nodup := by
  have hidx : (p.enum.map Prod.fst).Nodup := by
    rw [List.enum_map_fst]
    exact List.nodup_range p.length
  exact recreateGo_values_nodup hWF.2 hdv d.final_state_indices p pick p.enum
    ([], []) hidx (fun ic _ e he => absurd he (List.not_mem_nil e))
    (fun s2 => by simp) s

/-! ### Theorems -/

/-- C7: for every input satisfying the insertion-order contract of spec
section 4.1 and every representative choice, no state of the final minimized
automaton has two distinct outgoing edges whose Symbols have overlapping
ranges with the same display value (all outgoing edges of a state carry
pairwise distinct display values). -/
theorem c7_no_overlapping_siblings (cls : List (List Grapheme))
    (pick : List Nat → Nat) (s : Nat)
    (hc : insertionContractOK cls = true) :
    ((fromClustersWith pick cls).graph.edgesFrom s).Pairwise
      (fun e1 e2 => ¬ (e1.lbl.value = e2.lbl.value ∧ rangesOverlap e1.lbl e2.lbl)) := by
  have hWF := (buildDFA_WF cls).1
  have hdv := build_distinct cls hc
  have hnodup : (((fromClustersWith pick cls).graph.edgesFrom s).map
      (fun e => e.lbl.value)).Nodup :=
    recreateGraph_values_nodup hWF hdv pick _ s
  have hpw : ((fromClustersWith pick cls).graph.edgesFrom s).Pairwise
      (fun e1 e2 => e1.lbl.value ≠ e2.lbl.value) := List.pairwise_map.mp hnodup
  exact hpw.imp (fun h hconj => h hconj.1)

/-- Witness for C7 on the input {ab, ac} at the state reached on `a`. -/
theorem c7_no_overlapping_siblings_witness :
    insertionContractOK [[gA11, gB], [gA11, gC]] = true ∧
      ((fromClustersWith pickHead [[gA11, gB], [gA11, gC]]).graph.edgesFrom 1).Pairwise
        (fun e1 e2 => ¬ (e1.lbl.value = e2.lbl.value ∧ rangesOverlap e1.lbl e2.lbl)) :=
  ⟨by decide, c7_no_overlapping_siblings [[gA11, gB], [gA11, gC]] pickHead 1 (by decide)⟩

/-- C3: on every constructed automaton, `find_next_state` behaves exactly as
the claim describes the scan: skip edges with a different display text, widen
and return on an edge whose `maximum` is `symbol.maximum - 1` (integer
arithmetic), return unmodified on an edge with equal `maximum`, and report no
reusable transition otherwise. -/
theorem c3_find_next_state (cls : List (List Grapheme)) (cur : Nat)
    (gr : Grapheme) (col : Bool) :
    findNextState (buildDFA cls).graph cur gr col
      = findNextStateSpec (buildDFA cls).graph cur gr := by
  have hWF := (buildDFA_WF cls).1
  rw [findNextState, findNextStateSpec]
  have hL : ∀ e ∈ ((buildDFA cls).graph.edgesFrom cur).reverse,
      e ∈ (buildDFA cls).graph.edges ∧ e.src = cur := by
    intro e he
    rw [List.mem_reverse] at he
    exact mem_edgesFrom.mp he
  have hmain := findNextGo_eq_spec hWF.2 cur gr col
    ((buildDFA cls).graph.edgesFrom cur).reverse hL
  rw [show (buildDFA cls).graph.neighborsOut cur
      = (((buildDFA cls).graph.edgesFrom cur).reverse).map Edge.tgt from rfl]
  exact hmain

/-- C4: on every constructed automaton, `get_parent_states(A, s)` returns
exactly the set of states with at least one outgoing edge into some state of
`A` whose Symbol has the same display value as `s` and shares its `maximum`
or its `minimum` (on arbitrary graphs the per-state `break` could skip a
second matching parent, but constructed automata give every state at most one
incoming edge). -/
theorem c4_get_parent_states (cls : List (List Grapheme)) (a : List Nat)
    (lbl : Grapheme) (x : Nat) :
    x ∈ getParentStates (buildDFA cls).graph a lbl ↔
      ∃ s ∈ a, ∃ e ∈ (buildDFA cls).graph.edges,
        e.src = x ∧ e.tgt = s ∧ e.lbl.value = lbl.value ∧
          (e.lbl.maximum = lbl.maximum ∨ e.lbl.minimum = lbl.minimum) := by
  have hWF := (buildDFA_WF cls).1
  rw [getParentStates, gps_mem]
  simp only [List.not_mem_nil, false_or]
  constructor
  · rintro ⟨s, hs, hfm⟩
    exact ⟨s, hs, (firstMatchingParent_eq_some hWF lbl s x).mp hfm⟩
  · rintro ⟨s, hs, he⟩
    exact ⟨s, hs, (firstMatchingParent_eq_some hWF lbl s x).mpr he⟩

/-- C10: inserting the empty Symbol Sequence leaves the graph, the alphabet
and the initial state unchanged, adds exactly the initial state's identifier
to the final-state set, and makes the automaton accept the empty sequence. -/
theorem c10_insert_empty_marks_initial_final (d : DFA) (s : Nat) :
    (d.insert []).graph = d.graph ∧
      (d.insert []).alphabet = d.alphabet ∧
      (d.insert []).initial_state = d.initial_state ∧
      (s ∈ (d.insert []).final_state_indices ↔
        s ∈ d.final_state_indices ∨ s = d.initial_state) ∧
      (d.insert []).accepts [] = true := by
  refine ⟨rfl, rfl, rfl, ?_, ?_⟩
  · by_cases h : d.initial_state ∈ d.final_state_indices
    · simp only [DFA.insert, insertGo, setInsert, if_pos h]
      exact ⟨fun hs => Or.inl hs, fun hs => hs.elim id (fun he => he ▸ h)⟩
    · simp [DFA.insert, insertGo, setInsert, if_neg h]
  · by_cases h : d.initial_state ∈ d.final_state_indices <;>
      simp [DFA.accepts, acceptsFrom, DFA.insert, insertGo, setInsert, h]

/-- Auxiliary for C8: along the insertion of a cluster, the current state is
always the newest node and has no outgoing edge yet, so every grapheme adds
exactly one node and one edge. -/
theorem insertGo_growth (gs : List Grapheme) :
    ∀ (d : DFA) (cur : Nat),
      (∀ e ∈ d.graph.edges, e.src < d.graph.nodeCount) →
      cur + 1 = d.graph.nodeCount →
      d.graph.edgesFrom cur = [] →
      (insertGo d cur gs).1.graph.nodeCount = d.graph.nodeCount + gs.length ∧
        (insertGo d cur gs).1.graph.edges.length = d.graph.edges.length + gs.length := by
  induction gs with
  | nil => exact fun d cur _ _ _ => ⟨rfl, rfl⟩
  | cons g rest ih =>
    intro d cur hsrc hcur hfrom
    have hnb : d.graph.neighborsOut cur = [] := by
      rw [Graph.neighborsOut, hfrom]; rfl
    have hstep : insertGo d cur (g :: rest)
        = insertGo
            { d with
              alphabet := alphabetInsert g d.alphabet
              graph := { nodeCount := d.graph.nodeCount + 1
                         edges := d.graph.edges ++ [⟨cur, d.graph.nodeCount, g⟩] } }
            d.graph.nodeCount rest := by
      simp only [insertGo, getNextState, findNextState]
      have : ({ d with alphabet := alphabetInsert g d.alphabet } : DFA).graph = d.graph := rfl
      rw [this, hnb]
      rfl
    rw [hstep]
    have h2 := ih
      ({ d with
         alphabet := alphabetInsert g d.alphabet
         graph := { nodeCount := d.graph.nodeCount + 1
                    edges := d.graph.edges ++ [⟨cur, d.graph.nodeCount, g⟩] } })
      d.graph.nodeCount
      (by
        intro e he
        simp only [List.mem_append, List.mem_singleton] at he
        rcases he with he | rfl
        · exact Nat.lt_succ_of_lt (hsrc e he)
        · exact Nat.lt_succ_of_lt (hcur ▸ Nat.lt_succ_self cur))
      rfl
      (by
        simp only [Graph.edgesFrom, List.filter_append]
        have h1 : d.graph.edges.filter (fun e => decide (e.src = d.graph.nodeCount)) = [] := by
          apply List.filter_eq_nil_iff.mpr
          intro e he
          simpa using Nat.ne_of_lt (hsrc e he)
        have h2 : [(⟨cur, d.graph.nodeCount, g⟩ : Edge)].filter
            (fun e => decide (e.src = d.graph.nodeCount)) = [] := by
          have : cur ≠ d.graph.nodeCount := by omega
          simp [this]
        rw [h1, h2]
        rfl)
    refine ⟨?_, ?_⟩
    · rw [h2.1]
      show d.graph.nodeCount + 1 + rest.length = d.graph.nodeCount + (g :: rest).length
      simp only [List.length_cons]
      omega
    · rw [h2.2]
      show (d.graph.edges ++ [(⟨cur, d.graph.nodeCount, g⟩ : Edge)]).length + rest.length
        = d.graph.edges.length + (g :: rest).length
      simp only [List.length_append, List.length_cons, List.length_nil]
      omega

/-- C8: inserting a single Symbol Sequence of length `n` with pairwise
distinct symbols into a freshly created empty automaton yields exactly
`n + 1` states and `n` edges. -/
theorem c8_insertion_growth (w : List Grapheme) (_hw : w.Nodup) :
    ((DFA.new false).insert w).graph.nodeCount = w.length + 1 ∧
      ((DFA.new false).insert w).graph.edges.length = w.length := by
  have h := insertGo_growth w (DFA.new false) 0
    (by intro e he; simp [DFA.new] at he)
    (by rfl)
    (by rfl)
  have hg : ((DFA.new false).insert w).graph = (insertGo (DFA.new false) 0 w).1.graph := rfl
  constructor
  · rw [hg, h.1]
    show 1 + w.length = w.length + 1
    omega
  · rw [hg, h.2]
    show 0 + w.length = w.length
    omega

/-- Witness for C8 at the concrete sequence `[a, b, c]`. -/
theorem c8_insertion_growth_witness :
    ([gA11, gB, gC] : List Grapheme).Nodup ∧
      ((DFA.new false).insert [gA11, gB, gC]).graph.nodeCount = 3 + 1 ∧
      ((DFA.new false).insert [gA11, gB, gC]).graph.edges.length = 3 :=
  ⟨by decide, c8_insertion_growth [gA11, gB, gC] (by decide)⟩

/-- C6: the worklist update applied to every recorded split `(y, i, d)`:
when `y` is present in `w` (as a set) that occurrence is removed and both `i`
and `d` are appended; otherwise exactly the smaller of `i`/`d` is appended,
`i` on ties. -/
theorem c6_worklist_update (w : List (List Nat)) (y i d : List Nat) :
    worklistUpdate w y i d =
      if ∃ z ∈ w, listSetEq z y then
        w.eraseP (fun z => listSetEq z y) ++ [i, d]
      else if i.length ≤ d.length then w ++ [i] else w ++ [d] := by
  have hme : removeFirstSetEq y w = w.eraseP (fun z => listSetEq z y) := by
    induction w with
    | nil => rfl
    | cons z t ih => by_cases hz : listSetEq z y <;> simp [removeFirstSetEq, hz, ih]
  by_cases h : ∃ z ∈ w, listSetEq z y
  · have hb : (w.any (fun z => listSetEq z y)) = true := List.any_eq_true.mpr h
    rw [worklistUpdate, if_pos hb, if_pos h, hme]
  · have hb : (w.any (fun z => listSetEq z y)) = false := by
      rw [List.any_eq_false]
      intro z hz
      exact fun hzy => h ⟨z, hz, hzy⟩
    rw [worklistUpdate, if_neg (by simp [hb]), if_neg h]

/-- C9 (amended): the state count, the initial state and the alphabet of the
result of `DFA::from` do not depend on the hash-order-dependent choice of
class representatives; the refinement itself is representative-independent
and `recreate_graph` allocates one node per class before any representative
is consulted. -/
theorem c9_representative_independent_shape (clusters : List (List Grapheme))
    (pick1 pick2 : List Nat → Nat) :
    (fromClustersWith pick1 clusters).graph.nodeCount
        = (fromClustersWith pick2 clusters).graph.nodeCount ∧
      (fromClustersWith pick1 clusters).initial_state
        = (fromClustersWith pick2 clusters).initial_state ∧
      (fromClustersWith pick1 clusters).alphabet
        = (fromClustersWith pick2 clusters).alphabet :=
  ⟨rfl, rfl, rfl⟩

/-- C9 (counterexample): with input {ab, ac, dc, db}, choosing the first or
the last member of each class as its representative yields automata whose
edge lists differ (the copied edges appear in a different order), so runs
differing only in hash iteration order do not produce identical automata. -/
theorem c9_representative_choice_matters :
    fromClustersWith pickHead [[gA11, gB], [gA11, gC], [gD, gC], [gD, gB]]
      ≠ fromClustersWith pickLast [[gA11, gB], [gA11, gC], [gD, gC], [gD, gB]] := by
  decide

/-- C1: on the contract-satisfying input {x·a[1,2]·c, y·a[2,2]·c} the
minimized automaton accepts the Symbol Sequence y·a[1,1]·c which the built
automaton rejects: `minimize` does not preserve acceptance. -/
theorem c1_minimize_changes_acceptance :
    insertionContractOK [[gX, gA12, gC], [gY, gA22, gC]] = true ∧
      (buildDFA [[gX, gA12, gC], [gY, gA22, gC]]).accepts [gY, gA11, gC] = false ∧
      (fromClusters [[gX, gA12, gC], [gY, gA22, gC]]).accepts [gY, gA11, gC] = true := by
  decide

/-- C2: on the same input the produced automaton has 4 states but accepts a
different language from the input automaton, so it is not a minimal DFA for
that language (it is not a DFA for that language at all). -/
theorem c2_minimized_automaton_wrong_language :
    (fromClusters [[gX, gA12, gC], [gY, gA22, gC]]).state_count = 4 ∧
      (fromClusters [[gX, gA12, gC], [gY, gA22, gC]]).accepts [gY, gA11, gC]
        ≠ (buildDFA [[gX, gA12, gC], [gY, gA22, gC]]).accepts [gY, gA11, gC] := by
  decide

/-- C5 (amended): `recreate_graph` allocates exactly one new state per class
(`nodeCount = p.length`, classes being numbered in order), the new initial
state is the state of the class containing the old initial state, and a
class's new state `j` is final iff some class representative has an outgoing
edge whose old target is final and is mapped to `j`. -/
theorem c5_recreate_graph_characterization (d : DFA) (p : List (List Nat))
    (pick : List Nat → Nat) (j k : Nat)
    (hWF : Graph.WF d.graph)
    (hcov : ∀ c ∈ p, ∀ e ∈ d.graph.edges, e.src = pick c →
      (stateMapping p e.tgt).isSome)
    (hini : stateMapping p d.initial_state = some k) :
    (recreateGraph d pick p).graph.nodeCount = p.length ∧
      (recreateGraph d pick p).initial_state = k ∧
      (j ∈ (recreateGraph d pick p).final_state_indices ↔
        ∃ c ∈ p, ∃ e ∈ d.graph.edges, e.src = pick c ∧
          e.tgt ∈ d.final_state_indices ∧ stateMapping p e.tgt = some j) := by
  refine ⟨rfl, ?_, ?_⟩
  · show (stateMapping p d.initial_state).getD 0 = k
    rw [hini]
    rfl
  · have hmem := recreateGo_snd_mem hWF.2 d.final_state_indices p pick p.enum
      ([], []) j
    have hfin : j ∈ (recreateGraph d pick p).final_state_indices ↔
        j ∈ (recreateGo d.graph d.final_state_indices p pick p.enum ([], [])).2 :=
      Iff.rfl
    rw [hfin, hmem]
    simp only [List.not_mem_nil, false_or]
    rw [enum_exists_iff p (fun c => ∃ e ∈ d.graph.edges, e.src = pick c ∧
      e.tgt ∈ d.final_state_indices ∧ (stateMapping p e.tgt).getD 0 = j)]
    constructor
    · rintro ⟨c, hc, e, he, hsrc, hf, hm⟩
      refine ⟨c, hc, e, he, hsrc, hf, ?_⟩
      rcases hs : stateMapping p e.tgt with _ | v
      · exact absurd (hs ▸ hcov c hc e he hsrc) (by simp)
      · rw [hs] at hm
        simpa using hm ▸ rfl
    · rintro ⟨c, hc, e, he, hsrc, hf, hm⟩
      exact ⟨c, hc, e, he, hsrc, hf, by rw [hm]; rfl⟩

/-- Witness for C5 (amended) on the automaton of the single sequence `[a]`
with the discrete partition. -/
theorem c5_recreate_graph_characterization_witness :
    ((recreateGraph (buildDFA [[gA11]]) pickHead [[0], [1]]).graph.nodeCount = 2 ∧
      (recreateGraph (buildDFA [[gA11]]) pickHead [[0], [1]]).initial_state = 0 ∧
      (1 ∈ (recreateGraph (buildDFA [[gA11]]) pickHead [[0], [1]]).final_state_indices ↔
        ∃ c ∈ [[0], [1]], ∃ e ∈ (buildDFA [[gA11]]).graph.edges, e.src = pickHead c ∧
          e.tgt ∈ (buildDFA [[gA11]]).final_state_indices ∧
          stateMapping [[0], [1]] e.tgt = some 1)) :=
  c5_recreate_graph_characterization (buildDFA [[gA11]]) [[0], [1]] pickHead 1 0
    ⟨by decide, by decide⟩ (by decide) (by decide)

/-- C5 (counterexample): after inserting only the empty Symbol Sequence, the
final partition passed to `recreate_graph` is `[[0]]` and state 0 is final in
the old automaton, yet the rebuilt class state is not final: the "final iff
some member was final" direction fails for classes no representative edge
points into. -/
theorem c5_final_marking_counterexample :
    0 ∈ (buildDFA [[]]).final_state_indices ∧
      fromClusters [[]] = recreateGraph (buildDFA [[]]) pickHead [[0]] ∧
      ¬ 0 ∈ (recreateGraph (buildDFA [[]]) pickHead [[0]]).final_state_indices := by
  decide

end Grex
